import Mathlib

/-!
# Model manager and prediction front end: a verification development

Shallow embedding of `src/modelmanager.hpp` (class `ovms::ModelManager`) and of
`src/server.cc` (the gRPC prediction front end), followed by the theorems that
settle the properties stated about them.

Conventions of the embedding:
* a `std::map<K, V>` is an association list in iteration (key) order;
* a `std::shared_ptr<T>` that the code tests for null is an `Option T`, `none` being
  `nullptr`;
* a `std::vector<T>` is a `List T`;
* a call that can throw, abort or run into undefined behaviour returns an `Option`.
-/

namespace ovms

/-! ## Data model -/

/-- The integral type `model_version_t` of a model version. Its declaration lives in a
header outside the given sources; versions are only ever compared, never computed with. -/
abbrev model_version_t := Int

/-- Lifecycle states of one loaded model version. -/
inductive ModelInstanceState where
  | NEW
  | LOADING
  | AVAILABLE
  | RETIRING
  | END
deriving DecidableEq, Repr

/-- One loaded version of a model: its lifecycle state and the handle of the engine
representation it owns. -/
structure ModelInstance where
  state : ModelInstanceState
  handle : Nat
deriving DecidableEq, Repr

/-- The call `std::map::find` followed by the dereference `it->second`: the value stored
under `k`, or `none` when `find` returns `end()`. -/
def mapFind {K V : Type} [DecidableEq K] : List (K × V) → K → Option V
  | [], _ => none
  | (k', v) :: rest, k => if k' = k then some v else mapFind rest k

/-- The keys of a `std::map`, in iteration order. -/
def mapKeys {K V : Type} (m : List (K × V)) : List K := m.map Prod.fst

/-- The three output containers of `getVersionsToChange`. -/
structure VersionsToChange where
  versionsToRetire : List model_version_t
  versionsToReload : List model_version_t
  versionsToStart : List model_version_t
deriving DecidableEq, Repr

/-- Modelled from the spec: the body of `ModelManager::getVersionsToChange` (only its
declaration is in `modelmanager.hpp`). The specification gives the three outputs as
`toRetire` = served keys not present in `requested`, `toReload` = served keys present in
`requested`, `toStart` = `requested` minus served keys. -/
def getVersionsToChange (modelVersionsInstances : List (model_version_t × ModelInstance))
    (requestedVersions : List model_version_t) : VersionsToChange :=
  { versionsToRetire :=
      (mapKeys modelVersionsInstances).filter (fun v => decide (v ∉ requestedVersions))
    versionsToReload :=
      (mapKeys modelVersionsInstances).filter (fun v => decide (v ∈ requestedVersions))
    versionsToStart :=
      requestedVersions.filter (fun v => decide (v ∉ mapKeys modelVersionsInstances)) }

/-- Assignment `m[k] = v` on a `std::map`: the entry is placed at its position in key
order, replacing the value when the key is already present. -/
def mapInsert {V : Type} (k : model_version_t) (v : V) :
    List (model_version_t × V) → List (model_version_t × V)
  | [] => [(k, v)]
  | (k', v') :: rest =>
    if k < k' then (k, v) :: (k', v') :: rest
    else if k = k' then (k, v) :: rest
    else (k', v') :: mapInsert k v rest

/-- The call `std::map::erase(k)`. -/
def mapErase {V : Type} (k : model_version_t) (m : List (model_version_t × V)) :
    List (model_version_t × V) :=
  m.filter (fun e => decide (e.1 ≠ k))

/-- Modelled from the spec: class `Model` of `model.hpp`, which is not among the sources.
A model owns the mapping from version to instance, with unique keys. -/
structure Model where
  name : String
  modelVersions : List (model_version_t × ModelInstance)
deriving DecidableEq, Repr

/-- Modelled from the spec: the selection that `getDefaultModelInstance` makes in the
instance map, the entry of numerically highest version among those in state AVAILABLE. -/
def highestAvailable :
    List (model_version_t × ModelInstance) → Option (model_version_t × ModelInstance)
  | [] => none
  | (v, inst) :: rest =>
    match highestAvailable rest with
    | none => if inst.state = ModelInstanceState.AVAILABLE then some (v, inst) else none
    | some (w, j) =>
      if inst.state = ModelInstanceState.AVAILABLE ∧ w < v then some (v, inst) else some (w, j)

/-- Modelled from the spec: `Model::getDefaultModelInstance` of `model.hpp`, which is not
among the sources. The specification: it returns the AVAILABLE instance with the
numerically highest version, or not-found if none is AVAILABLE. -/
def Model.getDefaultModelInstance (m : Model) : Option ModelInstance :=
  (highestAvailable m.modelVersions).map Prod.snd

/-- Modelled from the spec: `Model::getModelInstanceByVersion` of `model.hpp`, which is not
among the sources. The specification: it returns the instance for the exact version, or
not-found. -/
def Model.getModelInstanceByVersion (m : Model) (version : model_version_t) :
    Option ModelInstance :=
  mapFind m.modelVersions version

/-- The two accessors of class `Model` that `findModelInstance` calls. The class is declared
outside the given sources, so the manager code takes them as a parameter. -/
structure ModelOps (M I : Type) where
  getDefaultModelInstance : M → Option I
  getModelInstanceByVersion : M → model_version_t → Option I

/-- The accessors of the `Model` modelled from the specification. -/
def modelOps : ModelOps Model ModelInstance :=
  { getDefaultModelInstance := Model.getDefaultModelInstance
    getModelInstanceByVersion := Model.getModelInstanceByVersion }

/-- The data members of `ModelManager` that the lookups read: the configuration file name
and the collection `models`, a `std::map<std::string, std::shared_ptr<Model>>`. -/
structure ModelManager (M : Type) where
  configFilename : String
  models : List (String × Option M)

/-- The method `ModelManager::findModelByName`:
`auto it = models.find(name); return it != models.end() ? it->second : nullptr;`
The second component is the manager after the call. -/
def ModelManager.findModelByName {M : Type} (self : ModelManager M) (name : String) :
    Option M × ModelManager M :=
  match mapFind self.models name with
  | some ptr => (ptr, self)
  | none => (none, self)

/-- The method `ModelManager::findModelInstance`: not-found when `findModelByName` gives a
null handle, the default instance of the model when `version == 0`, the instance of that
exact version otherwise. The second component is the manager after the call. -/
def ModelManager.findModelInstance {M I : Type} (ops : ModelOps M I) (self : ModelManager M)
    (name : String) (version : model_version_t) : Option I × ModelManager M :=
  match self.findModelByName name with
  | (none, self1) => (none, self1)
  | (some model, self1) =>
    if version = 0 then (ops.getDefaultModelInstance model, self1)
    else (ops.getModelInstanceByVersion model version, self1)

/-- Modelled from the spec: the engine-load capability `load(path, version, params)`, which
yields an engine handle or a load error (`none`). -/
abbrev EngineLoad := model_version_t → Option Nat

/-- Modelled from the spec: first load of a version. On success the new instance is
AVAILABLE and stored under the version; on a load error the version is left absent. -/
def startVersion (load : EngineLoad) (mv : List (model_version_t × ModelInstance))
    (v : model_version_t) : List (model_version_t × ModelInstance) :=
  match load v with
  | some h => mapInsert v { state := ModelInstanceState.AVAILABLE, handle := h } mv
  | none => mv

/-- Modelled from the spec: reload of a served version. A new instance is loaded and the
pointer stored under the version is swapped to it; on a load error the version is skipped. -/
def reloadVersion (load : EngineLoad) (mv : List (model_version_t × ModelInstance))
    (v : model_version_t) : List (model_version_t × ModelInstance) :=
  match load v with
  | some h => mapInsert v { state := ModelInstanceState.AVAILABLE, handle := h } mv
  | none => mv

/-- Modelled from the spec: retirement of a version. The instance goes through RETIRING to
END, its handle is released and it is removed from the model. -/
def retireVersion (mv : List (model_version_t × ModelInstance)) (v : model_version_t) :
    List (model_version_t × ModelInstance) :=
  mapErase v mv

/-- Modelled from the spec: `applyTransitions` of the model (its code is not among the
sources). The versions to start and to reload are processed before the versions to retire
are removed. -/
def Model.applyTransitions (load : EngineLoad) (m : Model)
    (toStart toReload toRetire : List model_version_t) : Model :=
  { m with
    modelVersions :=
      toRetire.foldl retireVersion
        (toReload.foldl (reloadVersion load)
          (toStart.foldl (startVersion load) m.modelVersions)) }

/-- Modelled from the spec: one reconciliation pass for one model, the core of
`ModelManager::reloadModelWithVersions` (only its declaration is among the sources):
the transition sets are computed from the requested versions and applied to the model. -/
def reconcile (load : EngineLoad) (m : Model) (requestedVersions : List model_version_t) :
    Model :=
  let c := getVersionsToChange m.modelVersions requestedVersions
  m.applyTransitions load c.versionsToStart c.versionsToReload c.versionsToRetire

/-- A model with versions 3 and 7 AVAILABLE and version 9 at END. -/
def exampleModel : Model :=
  { name := "resnet"
    modelVersions :=
      [(3, ⟨ModelInstanceState.AVAILABLE, 30⟩), (7, ⟨ModelInstanceState.AVAILABLE, 70⟩),
        (9, ⟨ModelInstanceState.END, 90⟩)] }

/-- A manager serving `exampleModel` under the name `resnet`. -/
def exampleManager : ModelManager Model :=
  { configFilename := "config.json"
    models := [("resnet", some exampleModel)] }

/-- A model that serves version 5 only. -/
def servedFive : Model :=
  { name := "resnet"
    modelVersions := [(5, ⟨ModelInstanceState.AVAILABLE, 50⟩)] }

/-- A manager serving, under the name `resnet`, the model `servedFive` after one
reconciliation pass with no requested version. -/
def exampleRetired (load : EngineLoad) : ModelManager Model :=
  { configFilename := "config.json"
    models := [("resnet", some (reconcile load servedFive []))] }

end ovms

namespace server

/-! ## The prediction front end (`server.cc`) -/

/-- Width in bits of the C++ types `int` and `unsigned int` on the target platform. -/
def INT_BITS : Nat := 32

/-- Width in bits of `size_t` on the target platform. -/
def SIZE_BITS : Nat := 64

/-- Conversion of a 64-bit signed value to `int`: reduction modulo `2 ^ 32` into the range
of the signed type. -/
def toInt (x : Int) : Int :=
  (x + 2 ^ (INT_BITS - 1)) % 2 ^ INT_BITS - 2 ^ (INT_BITS - 1)

/-- The unsigned subtraction `a - b` on `size_t`, for `b` in the range of the type. -/
def sizeSub (a b : Nat) : Nat :=
  (a + 2 ^ SIZE_BITS - b) % 2 ^ SIZE_BITS

/-- The increment `++i` of an `unsigned int`. -/
def uintSucc (i : Nat) : Nat :=
  (i + 1) % 2 ^ INT_BITS

/-- The message `tensorflow::TensorProto`, reduced to the two fields the code reads: the
sizes of the dimensions of `tensor_shape` and the bytes of `tensor_content`. -/
structure TensorProto where
  tensor_shape : List Int
  tensor_content : List Nat
deriving DecidableEq, Repr

/-- The message `PredictRequest`: its `inputs` map, in iteration order. -/
structure PredictRequest where
  inputs : List (String × TensorProto)
deriving DecidableEq, Repr

/-- The message `PredictResponse`: its `outputs` map. -/
structure PredictResponse where
  outputs : List (String × TensorProto)
deriving DecidableEq, Repr

/-- The type `grpc::Status`: an error code and a message. -/
structure Status where
  error_code : Nat
  error_message : String
deriving DecidableEq, Repr

/-- The constant `Status::OK`. -/
def Status.OK : Status := { error_code := 0, error_message := "" }

/-- The library class `tensorflow::TensorShape`, which is external to the repository:
construction from the dimension sizes followed by `num_elements()`. The dimensions are added
one by one, the count being multiplied by each size; the construction aborts (`none`) on a
negative size, on more than 254 dimensions and when the count leaves the 64-bit signed
range. -/
def tensorShapeNumElements : List Int → Nat → Int → Option Int
  | [], _, num => some num
  | size :: rest, ndims, num =>
    if size < 0 ∨ 254 ≤ ndims ∨ 2 ^ 63 ≤ num * size then none
    else tensorShapeNumElements rest (ndims + 1) (num * size)

/-- The function `getNumOfElements`: the element count of the declared shape, returned as
an `int`. -/
def getNumOfElements (tensorProto : TensorProto) : Option Int :=
  (tensorShapeNumElements tensorProto.tensor_shape 0 1).map toInt

/-- The loop of `printTensor`, at an element of the vector with the counter at `i`; `size`
is `t.size()`. An element is skipped when `i > 6 && i < t.size() - 10`, the comparison with
the difference being made on `size_t`; the result is the sequence of elements written to
the output stream. -/
def printTensorLoop {α : Type} (size : Nat) : List α → Nat → List α
  | [], _ => []
  | x :: rest, i =>
    if i > 6 ∧ i < sizeSub size 10 then printTensorLoop size rest (uintSucc i)
    else x :: printTensorLoop size rest (uintSucc i)

/-- The function `printTensor`: the elements of `t` it writes after the heading, in
order. -/
def printTensor {α : Type} (t : List α) : List α :=
  printTensorLoop t.length t 0

/-- The elements that the description of `printTensor` selects: those at the indices `i`
with `i ≤ 6` or `i ≥ (n - 10) mod 2 ^ 64`, in index order, `n` being the length. -/
def printedByIndex {α : Type} (t : List α) : List α :=
  (t.enum.filter
    (fun p => decide (p.1 ≤ 6 ∨ ((t.length : Int) - 10) % 2 ^ 64 ≤ (p.1 : Int)))).map Prod.snd

/-- Size in bytes of a `float` on the target platform. -/
def FLOAT_BYTES : Nat := 4

/-- The float at element offset `k` of a byte buffer viewed through
`reinterpret_cast<const float*>`: the value that `floatOfBytes` gives to the four bytes at
byte offset `4 * k`. -/
def floatAt {F : Type} (floatOfBytes : List Nat → F) (content : List Nat) (k : Nat) : F :=
  floatOfBytes ((content.drop (FLOAT_BYTES * k)).take FLOAT_BYTES)

/-- The function `deserializePredict`. The loop body returns at its first iteration, so only
the first input in iteration order is read; with no input the function ends without a
return value (`none`). The vector is built from the range of `num_of_elements` floats that
starts at the data pointer of `tensor_content`. A negative count is not a valid range
(`none`). The code does not compare the count with the size of `tensor_content`: a range
that extends past the end of the buffer is read out of bounds, which is undefined
behaviour (`none`). -/
def deserializePredict {F : Type} (floatOfBytes : List Nat → F) (request : PredictRequest) :
    Option (List F) :=
  match request.inputs with
  | [] => none
  | (_, tensor) :: _ =>
    match getNumOfElements tensor with
    | none => none
    | some num_of_elements =>
      if num_of_elements < 0 then none
      else if tensor.tensor_content.length < FLOAT_BYTES * num_of_elements.toNat then none
      else
        some ((List.range num_of_elements.toNat).map
          (floatAt floatOfBytes tensor.tensor_content))

/-- The method `PredictionServiceImpl::Predict`. The request is deserialized, the engine
runs on the tensor (`infer`, `none` when it throws), the output buffer is obtained, a line is
written to the standard output and `Status::OK` is returned. The result is the status with
the response message as it stands after the call. -/
def Predict {F : Type} (floatOfBytes : List Nat → F) (infer : List F → Option (List F))
    (request : PredictRequest) (response : PredictResponse) :
    Option (Status × PredictResponse) :=
  match deserializePredict floatOfBytes request with
  | none => none
  | some tensor =>
    match infer tensor with
    | none => none
    | some _buffer => some (Status.OK, response)

/-- A tensor of declared shape 2 x 3 with the 24 bytes of content that six floats take. -/
def exampleTensor : TensorProto :=
  { tensor_shape := [2, 3]
    tensor_content :=
      [0, 0, 128, 63, 0, 0, 0, 64, 0, 0, 64, 64, 0, 0, 128, 64, 0, 0, 160, 64, 0, 0, 192, 64] }

/-- A request with one input. -/
def exampleRequest : PredictRequest :=
  { inputs := [("data", exampleTensor)] }

/-- A response that already holds one output. -/
def exampleResponse : PredictResponse :=
  { outputs := [("prob", exampleTensor)] }

end server

/-! ## Theorems on the reconciler -/

namespace ovms

theorem mem_versionsToRetire (served : List (model_version_t × ModelInstance))
    (requested : List model_version_t) (v : model_version_t) :
    v ∈ (getVersionsToChange served requested).versionsToRetire ↔
      v ∈ mapKeys served ∧ v ∉ requested := by
  simp [getVersionsToChange, List.mem_filter]

theorem mem_versionsToReload (served : List (model_version_t × ModelInstance))
    (requested : List model_version_t) (v : model_version_t) :
    v ∈ (getVersionsToChange served requested).versionsToReload ↔
      v ∈ mapKeys served ∧ v ∈ requested := by
  simp [getVersionsToChange, List.mem_filter]

theorem mem_versionsToStart (served : List (model_version_t × ModelInstance))
    (requested : List model_version_t) (v : model_version_t) :
    v ∈ (getVersionsToChange served requested).versionsToStart ↔
      v ∈ requested ∧ v ∉ mapKeys served := by
  simp [getVersionsToChange, List.mem_filter]

/-- C1: for every served map and every requested list, also when the requested versions
are given in another order, the outputs of `getVersionsToChange` are, as sets,
retire = keys(served) minus requested, reload = keys(served) inter requested and
start = requested minus keys(served); with served = {1, 2} and requested = {2, 3} they are
{1}, {2} and {3}. -/
theorem getVersionsToChange_set_identities
    (served : List (model_version_t × ModelInstance))
    (requested reordered : List model_version_t) (hnodup : requested.Nodup)
    (hperm : reordered.Perm requested) :
    (∀ v, v ∈ (getVersionsToChange served reordered).versionsToRetire ↔
        v ∈ mapKeys served ∧ v ∉ requested) ∧
    (∀ v, v ∈ (getVersionsToChange served reordered).versionsToReload ↔
        v ∈ mapKeys served ∧ v ∈ requested) ∧
    (∀ v, v ∈ (getVersionsToChange served reordered).versionsToStart ↔
        v ∈ requested ∧ v ∉ mapKeys served) ∧
    (getVersionsToChange served reordered).versionsToStart.Nodup ∧
    (∀ a b : ModelInstance,
      getVersionsToChange [(1, a), (2, b)] [2, 3] = ⟨[1], [2], [3]⟩ ∧
      getVersionsToChange [(1, a), (2, b)] [3, 2] = ⟨[1], [2], [3]⟩) := by
  refine ⟨?_, ?_, ?_, ?_, ?_⟩
  · intro v
    rw [mem_versionsToRetire, hperm.mem_iff]
  · intro v
    rw [mem_versionsToReload, hperm.mem_iff]
  · intro v
    rw [mem_versionsToStart, hperm.mem_iff]
  · exact (hperm.nodup_iff.mpr hnodup).filter _
  · intro a b
    constructor <;> simp [getVersionsToChange, mapKeys, List.filter]

theorem getVersionsToChange_set_identities_witness :
    ([2, 3] : List model_version_t).Nodup ∧
    ([3, 2] : List model_version_t).Perm [2, 3] ∧
    (∀ v, v ∈ (getVersionsToChange
        [(1, ⟨ModelInstanceState.AVAILABLE, 10⟩), (2, ⟨ModelInstanceState.END, 11⟩)]
        [3, 2]).versionsToRetire ↔
      v ∈ mapKeys
        [((1 : model_version_t), (⟨ModelInstanceState.AVAILABLE, 10⟩ : ModelInstance)),
          (2, ⟨ModelInstanceState.END, 11⟩)] ∧ v ∉ ([2, 3] : List model_version_t)) :=
  ⟨by decide, List.Perm.swap 2 3 [],
    (getVersionsToChange_set_identities
      [(1, ⟨ModelInstanceState.AVAILABLE, 10⟩), (2, ⟨ModelInstanceState.END, 11⟩)]
      [2, 3] [3, 2] (by decide) (List.Perm.swap 2 3 [])).1⟩

/-- C2: for every served map (keys unique) and every duplicate-free requested list, the
three outputs of `getVersionsToChange` are pairwise disjoint, their union is
keys(served) union requested, and no version occurs twice in the three outputs taken
together: every version involved is classified into exactly one bucket. -/
theorem getVersionsToChange_partition
    (served : List (model_version_t × ModelInstance)) (requested : List model_version_t)
    (hserved : (mapKeys served).Nodup) (hrequested : requested.Nodup) :
    List.Disjoint (getVersionsToChange served requested).versionsToRetire
      (getVersionsToChange served requested).versionsToReload ∧
    List.Disjoint (getVersionsToChange served requested).versionsToRetire
      (getVersionsToChange served requested).versionsToStart ∧
    List.Disjoint (getVersionsToChange served requested).versionsToReload
      (getVersionsToChange served requested).versionsToStart ∧
    (∀ v, (v ∈ (getVersionsToChange served requested).versionsToRetire ∨
          v ∈ (getVersionsToChange served requested).versionsToReload ∨
          v ∈ (getVersionsToChange served requested).versionsToStart) ↔
        (v ∈ mapKeys served ∨ v ∈ requested)) ∧
    ((getVersionsToChange served requested).versionsToRetire ++
      (getVersionsToChange served requested).versionsToReload ++
      (getVersionsToChange served requested).versionsToStart).Nodup := by
  have h12 : List.Disjoint (getVersionsToChange served requested).versionsToRetire
      (getVersionsToChange served requested).versionsToReload := by
    intro v h1 h2
    rw [mem_versionsToRetire] at h1
    rw [mem_versionsToReload] at h2
    exact h1.2 h2.2
  have h13 : List.Disjoint (getVersionsToChange served requested).versionsToRetire
      (getVersionsToChange served requested).versionsToStart := by
    intro v h1 h2
    rw [mem_versionsToRetire] at h1
    rw [mem_versionsToStart] at h2
    exact h1.2 h2.1
  have h23 : List.Disjoint (getVersionsToChange served requested).versionsToReload
      (getVersionsToChange served requested).versionsToStart := by
    intro v h1 h2
    rw [mem_versionsToReload] at h1
    rw [mem_versionsToStart] at h2
    exact h2.2 h1.1
  refine ⟨h12, h13, h23, ?_, ?_⟩
  · intro v
    rw [mem_versionsToRetire, mem_versionsToReload, mem_versionsToStart]
    tauto
  · rw [List.nodup_append, List.nodup_append]
    refine ⟨⟨hserved.filter _, hserved.filter _, h12⟩, hrequested.filter _, ?_⟩
    intro v h1 h2
    rcases List.mem_append.mp h1 with h | h
    · exact h13 h h2
    · exact h23 h h2

theorem getVersionsToChange_partition_witness :
    (mapKeys exampleModel.modelVersions).Nodup ∧
    ([7, 4] : List model_version_t).Nodup ∧
    ((getVersionsToChange exampleModel.modelVersions [7, 4]).versionsToRetire ++
      (getVersionsToChange exampleModel.modelVersions [7, 4]).versionsToReload ++
      (getVersionsToChange exampleModel.modelVersions [7, 4]).versionsToStart).Nodup :=
  ⟨by decide, by decide,
    (getVersionsToChange_partition exampleModel.modelVersions [7, 4]
      (by decide) (by decide)).2.2.2.2⟩

/-! ## Theorems on the lookups -/

theorem mapFind_of_not_mem {K V : Type} [DecidableEq K] (m : List (K × V)) (k : K)
    (h : k ∉ mapKeys m) : mapFind m k = none := by
  induction m with
  | nil => rfl
  | cons e rest ih =>
    obtain ⟨k', v'⟩ := e
    simp only [mapKeys, List.map_cons, List.mem_cons, not_or] at h
    have hne : ¬ k' = k := fun hk => h.1 hk.symm
    simp only [mapFind, hne, if_false]
    exact ih h.2

theorem mapFind_of_mem {K V : Type} [DecidableEq K] (m : List (K × V)) (k : K) (v : V)
    (hkeys : (mapKeys m).Nodup) (h : (k, v) ∈ m) : mapFind m k = some v := by
  induction m with
  | nil => simp at h
  | cons e rest ih =>
    obtain ⟨k', v'⟩ := e
    simp only [mapKeys, List.map_cons, List.nodup_cons] at hkeys
    rcases List.mem_cons.mp h with heq | hrest
    · cases heq
      simp [mapFind]
    · have hmem : k ∈ rest.map Prod.fst := List.mem_map.mpr ⟨(k, v), hrest, rfl⟩
      have hne : ¬ k' = k := fun hk => hkeys.1 (hk ▸ hmem)
      simp only [mapFind, hne, if_false]
      exact ih hkeys.2 hrest

theorem mapFind_some_mem {K V : Type} [DecidableEq K] (m : List (K × V)) (k : K) (v : V)
    (h : mapFind m k = some v) : (k, v) ∈ m := by
  induction m with
  | nil => simp [mapFind] at h
  | cons e rest ih =>
    obtain ⟨k', v'⟩ := e
    by_cases hk : k' = k
    · simp only [mapFind, hk, if_true, Option.some.injEq] at h
      subst hk
      subst h
      exact List.mem_cons_self _ _
    · simp only [mapFind, hk, if_false] at h
      exact List.mem_cons_of_mem _ (ih h)

theorem findModelByName_of_mem {M : Type} (self : ModelManager M) (name : String)
    (handle : Option M) (hkeys : (mapKeys self.models).Nodup)
    (hmem : (name, handle) ∈ self.models) : (self.findModelByName name).1 = handle := by
  simp only [ModelManager.findModelByName, mapFind_of_mem self.models name handle hkeys hmem]

theorem findModelByName_of_not_mem {M : Type} (self : ModelManager M) (name : String)
    (hnot : name ∉ mapKeys self.models) : (self.findModelByName name).1 = none := by
  simp only [ModelManager.findModelByName, mapFind_of_not_mem self.models name hnot]

/-- C5: for every models map (keys unique) and every name, `findModelByName` returns
exactly the handle stored under the name when the name is a key, returns not-found when
the name is not a key, and leaves the manager, hence its models map, unchanged. -/
theorem findModelByName_returns_stored_handle {M : Type} (self : ModelManager M)
    (name : String) (hkeys : (mapKeys self.models).Nodup) :
    (∀ handle, (name, handle) ∈ self.models → (self.findModelByName name).1 = handle) ∧
    (name ∉ mapKeys self.models → (self.findModelByName name).1 = none) ∧
    (self.findModelByName name).2 = self := by
  refine ⟨?_, ?_, ?_⟩
  · intro handle hmem
    exact findModelByName_of_mem self name handle hkeys hmem
  · intro hnot
    exact findModelByName_of_not_mem self name hnot
  · unfold ModelManager.findModelByName
    split <;> rfl

theorem findModelByName_returns_stored_handle_witness :
    (mapKeys exampleManager.models).Nodup ∧
    (exampleManager.findModelByName "resnet").1 = some exampleModel ∧
    (exampleManager.findModelByName "absent").1 = none ∧
    (exampleManager.findModelByName "resnet").2 = exampleManager :=
  ⟨by decide,
    (findModelByName_returns_stored_handle exampleManager "resnet" (by decide)).1
      (some exampleModel) (by decide),
    (findModelByName_returns_stored_handle exampleManager "absent" (by decide)).2.1
      (by decide),
    (findModelByName_returns_stored_handle exampleManager "resnet" (by decide)).2.2⟩

theorem findModelByName_fst {M : Type} (self : ModelManager M) (name : String) :
    self.findModelByName name = ((self.findModelByName name).1, self) := by
  unfold ModelManager.findModelByName
  split <;> rfl

theorem findModelInstance_of_model {M I : Type} (ops : ModelOps M I) (self : ModelManager M)
    (name : String) (version : model_version_t) (model : M)
    (h : (self.findModelByName name).1 = some model) :
    self.findModelInstance ops name version =
      (if version = 0 then ops.getDefaultModelInstance model
        else ops.getModelInstanceByVersion model version, self) := by
  unfold ModelManager.findModelInstance
  rw [findModelByName_fst, h]
  by_cases hv : version = 0 <;> simp [hv]

theorem findModelInstance_of_null {M I : Type} (ops : ModelOps M I) (self : ModelManager M)
    (name : String) (version : model_version_t)
    (h : (self.findModelByName name).1 = none) :
    self.findModelInstance ops name version = (none, self) := by
  unfold ModelManager.findModelInstance
  rw [findModelByName_fst, h]

/-- C3: for every models map (keys unique), name and version `v`, `findModelInstance`
returns not-found when the name is not a key of the models map; when a model is stored
under the name it returns the result of `getDefaultModelInstance` of that model for
`v = 0` and of `getModelInstanceByVersion(v)` for `v ≠ 0` (a null handle stored under the
name gives not-found). For `v = 0` the result does not
depend on the lookup by version, for `v ≠ 0` it does not depend on the default, and the
manager is left unchanged. -/
theorem findModelInstance_dispatch {M I : Type} (ops : ModelOps M I) (self : ModelManager M)
    (name : String) (v : model_version_t) (hkeys : (mapKeys self.models).Nodup) :
    (name ∉ mapKeys self.models → (self.findModelInstance ops name v).1 = none) ∧
    (∀ model, (name, some model) ∈ self.models →
      (v = 0 → (self.findModelInstance ops name v).1 = ops.getDefaultModelInstance model) ∧
      (v ≠ 0 →
        (self.findModelInstance ops name v).1 = ops.getModelInstanceByVersion model v)) ∧
    ((name, none) ∈ self.models → (self.findModelInstance ops name v).1 = none) ∧
    (∀ byVersion : M → model_version_t → Option I, v = 0 →
      self.findModelInstance { ops with getModelInstanceByVersion := byVersion } name v =
        self.findModelInstance ops name v) ∧
    (∀ default : M → Option I, v ≠ 0 →
      self.findModelInstance { ops with getDefaultModelInstance := default } name v =
        self.findModelInstance ops name v) ∧
    (self.findModelInstance ops name v).2 = self := by
  have hcases : ∀ ops1 : ModelOps M I,
      (∃ model, (self.findModelByName name).1 = some model ∧
        self.findModelInstance ops1 name v =
          (if v = 0 then ops1.getDefaultModelInstance model
            else ops1.getModelInstanceByVersion model v, self)) ∨
      ((self.findModelByName name).1 = none ∧
        self.findModelInstance ops1 name v = (none, self)) := by
    intro ops1
    cases hfind : (self.findModelByName name).1 with
    | none => exact Or.inr ⟨rfl, findModelInstance_of_null ops1 self name v hfind⟩
    | some model =>
      exact Or.inl ⟨model, rfl, findModelInstance_of_model ops1 self name v model hfind⟩
  refine ⟨?_, ?_, ?_, ?_, ?_, ?_⟩
  · intro hnot
    rw [findModelInstance_of_null ops self name v (findModelByName_of_not_mem self name hnot)]
  · intro model hmem
    have hfind := findModelByName_of_mem self name (some model) hkeys hmem
    rw [findModelInstance_of_model ops self name v model hfind]
    constructor
    · intro hv
      simp [hv]
    · intro hv
      simp [hv]
  · intro hmem
    rw [findModelInstance_of_null ops self name v
      (findModelByName_of_mem self name none hkeys hmem)]
  · intro byVersion hv
    cases hfind : (self.findModelByName name).1 with
    | none =>
      rw [findModelInstance_of_null _ self name v hfind,
        findModelInstance_of_null _ self name v hfind]
    | some model =>
      rw [findModelInstance_of_model _ self name v model hfind,
        findModelInstance_of_model _ self name v model hfind]
      simp [hv]
  · intro default hv
    cases hfind : (self.findModelByName name).1 with
    | none =>
      rw [findModelInstance_of_null _ self name v hfind,
        findModelInstance_of_null _ self name v hfind]
    | some model =>
      rw [findModelInstance_of_model _ self name v model hfind,
        findModelInstance_of_model _ self name v model hfind]
      simp [hv]
  · rcases hcases ops with ⟨model, _, h⟩ | ⟨_, h⟩ <;> rw [h]

theorem findModelInstance_dispatch_witness :
    (mapKeys exampleManager.models).Nodup ∧
    (exampleManager.findModelInstance modelOps "absent" 7).1 = none ∧
    (exampleManager.findModelInstance modelOps "resnet" 0).1 =
      modelOps.getDefaultModelInstance exampleModel ∧
    (exampleManager.findModelInstance modelOps "resnet" 7).1 =
      modelOps.getModelInstanceByVersion exampleModel 7 :=
  ⟨by decide,
    (findModelInstance_dispatch modelOps exampleManager "absent" 7 (by decide)).1 (by decide),
    ((findModelInstance_dispatch modelOps exampleManager "resnet" 0 (by decide)).2.1
      exampleModel (by decide)).1 rfl,
    ((findModelInstance_dispatch modelOps exampleManager "resnet" 7 (by decide)).2.1
      exampleModel (by decide)).2 (by decide)⟩

theorem highestAvailable_none (l : List (model_version_t × ModelInstance)) :
    highestAvailable l = none ↔ ∀ e ∈ l, e.2.state ≠ ModelInstanceState.AVAILABLE := by
  induction l with
  | nil => simp [highestAvailable]
  | cons e rest ih =>
    obtain ⟨v, inst⟩ := e
    cases hrest : highestAvailable rest with
    | none =>
      have hall := ih.mp hrest
      by_cases hs : inst.state = ModelInstanceState.AVAILABLE
      · simp [highestAvailable, hrest, hs]
      · simp only [highestAvailable, hrest, hs, if_false, true_iff]
        intro e he
        rcases List.mem_cons.mp he with h | h
        · rw [h]
          exact hs
        · exact hall e h
    | some p =>
      obtain ⟨w, j⟩ := p
      have hsome : ¬ ∀ e ∈ rest, e.2.state ≠ ModelInstanceState.AVAILABLE := by
        intro hall
        rw [ih.mpr hall] at hrest
        cases hrest
      have hleft : highestAvailable ((v, inst) :: rest) ≠ none := by
        simp only [highestAvailable, hrest]
        split <;> simp
      constructor
      · intro h
        exact absurd h hleft
      · intro hall
        exact absurd (fun e he => hall e (List.mem_cons_of_mem _ he)) hsome

theorem highestAvailable_some (l : List (model_version_t × ModelInstance))
    (v : model_version_t) (inst : ModelInstance) (h : highestAvailable l = some (v, inst)) :
    (v, inst) ∈ l ∧ inst.state = ModelInstanceState.AVAILABLE ∧
      ∀ e ∈ l, e.2.state = ModelInstanceState.AVAILABLE → e.1 ≤ v := by
  induction l generalizing v inst with
  | nil => simp [highestAvailable] at h
  | cons e rest ih =>
    obtain ⟨u, i⟩ := e
    cases hrest : highestAvailable rest with
    | none =>
      have hall := (highestAvailable_none rest).mp hrest
      by_cases hs : i.state = ModelInstanceState.AVAILABLE
      · simp only [highestAvailable, hrest, hs, if_true, Option.some.injEq,
          Prod.mk.injEq] at h
        obtain ⟨hu, hi⟩ := h
        subst hu
        subst hi
        refine ⟨List.mem_cons_self _ _, hs, ?_⟩
        intro e he hav
        rcases List.mem_cons.mp he with h1 | h1
        · rw [h1]
        · exact absurd hav (hall e h1)
      · simp [highestAvailable, hrest, hs] at h
    | some p =>
      obtain ⟨w, j⟩ := p
      obtain ⟨hmem, hav, hmax⟩ := ih w j hrest
      by_cases hc : i.state = ModelInstanceState.AVAILABLE ∧ w < u
      · simp only [highestAvailable, hrest, hc, and_self, if_true, Option.some.injEq,
          Prod.mk.injEq] at h
        obtain ⟨hu, hi⟩ := h
        subst hu
        subst hi
        refine ⟨List.mem_cons_self _ _, hc.1, ?_⟩
        intro e he hs
        rcases List.mem_cons.mp he with h1 | h1
        · rw [h1]
        · exact le_trans (hmax e h1 hs) (le_of_lt hc.2)
      · simp only [highestAvailable, hrest, hc, if_false, Option.some.injEq,
          Prod.mk.injEq] at h
        obtain ⟨hu, hi⟩ := h
        subst hu
        subst hi
        refine ⟨List.mem_cons_of_mem _ hmem, hav, ?_⟩
        intro e he hs
        rcases List.mem_cons.mp he with h1 | h1
        · rw [h1]
          by_contra hlt
          exact hc ⟨by rw [h1] at hs; exact hs, lt_of_not_le hlt⟩
        · exact hmax e h1 hs

/-- C4: for every model (keys of the instance map unique), `getDefaultModelInstance` returns
not-found exactly when no instance is AVAILABLE, and otherwise returns exactly the AVAILABLE
instance whose version is the highest among the AVAILABLE ones; hence for a model whose
AVAILABLE versions are 3 and 7, `findModelInstance(name, 0)` returns the instance stored
for version 7. -/
theorem getDefaultModelInstance_highest_available (m : Model)
    (hkeys : (mapKeys m.modelVersions).Nodup) :
    (m.getDefaultModelInstance = none ↔
      ∀ e ∈ m.modelVersions, e.2.state ≠ ModelInstanceState.AVAILABLE) ∧
    (∀ inst, m.getDefaultModelInstance = some inst ↔
      ∃ v, m.getModelInstanceByVersion v = some inst ∧
        inst.state = ModelInstanceState.AVAILABLE ∧
        ∀ e ∈ m.modelVersions, e.2.state = ModelInstanceState.AVAILABLE → e.1 ≤ v) ∧
    (∀ (self : ModelManager Model) (name : String),
      (mapKeys self.models).Nodup → (name, some m) ∈ self.models →
      (∀ w, (∃ i, (w, i) ∈ m.modelVersions ∧ i.state = ModelInstanceState.AVAILABLE) ↔
        (w = 3 ∨ w = 7)) →
      ∃ inst, (self.findModelInstance modelOps name 0).1 = some inst ∧
        m.getModelInstanceByVersion 7 = some inst) := by
  have hiff : ∀ inst, m.getDefaultModelInstance = some inst ↔
      ∃ v, m.getModelInstanceByVersion v = some inst ∧
        inst.state = ModelInstanceState.AVAILABLE ∧
        ∀ e ∈ m.modelVersions, e.2.state = ModelInstanceState.AVAILABLE → e.1 ≤ v := by
    intro inst
    constructor
    · intro h
      cases hh : highestAvailable m.modelVersions with
      | none => simp [Model.getDefaultModelInstance, hh] at h
      | some p =>
        obtain ⟨v, i⟩ := p
        simp only [Model.getDefaultModelInstance, hh, Option.map_some',
          Option.some.injEq] at h
        subst h
        obtain ⟨hmem, hav, hmax⟩ := highestAvailable_some m.modelVersions v i hh
        exact ⟨v, mapFind_of_mem m.modelVersions v i hkeys hmem, hav, hmax⟩
    · rintro ⟨v, hfind, hav, hmax⟩
      have hmem := mapFind_some_mem m.modelVersions v inst hfind
      cases hh : highestAvailable m.modelVersions with
      | none => exact absurd hav ((highestAvailable_none m.modelVersions).mp hh (v, inst) hmem)
      | some p =>
        obtain ⟨w, j⟩ := p
        obtain ⟨hmem2, hav2, hmax2⟩ := highestAvailable_some m.modelVersions w j hh
        have hwv : w = v := le_antisymm (hmax (w, j) hmem2 hav2) (hmax2 (v, inst) hmem hav)
        subst hwv
        have h1 := mapFind_of_mem m.modelVersions w j hkeys hmem2
        unfold Model.getModelInstanceByVersion at hfind
        rw [h1] at hfind
        simp only [Model.getDefaultModelInstance, hh, Option.map_some']
        exact hfind
  refine ⟨?_, hiff, ?_⟩
  · rw [← highestAvailable_none]
    simp [Model.getDefaultModelInstance]
  · intro self name hmodels hmem hset
    obtain ⟨i7, hi7, hav7⟩ := (hset 7).mpr (Or.inr rfl)
    have hfind := findModelByName_of_mem self name (some m) hmodels hmem
    rw [findModelInstance_of_model modelOps self name 0 m hfind]
    refine ⟨i7, ?_, mapFind_of_mem m.modelVersions 7 i7 hkeys hi7⟩
    simp only [if_true]
    show m.getDefaultModelInstance = some i7
    rw [hiff]
    refine ⟨7, mapFind_of_mem m.modelVersions 7 i7 hkeys hi7, hav7, ?_⟩
    intro e he hs
    rcases (hset e.1).mp ⟨e.2, he, hs⟩ with h | h
    · exact le_of_eq_of_le h (by decide)
    · exact le_of_eq h

theorem getDefaultModelInstance_highest_available_witness :
    (mapKeys exampleModel.modelVersions).Nodup ∧
    (mapKeys exampleManager.models).Nodup ∧
    ∃ inst, (exampleManager.findModelInstance modelOps "resnet" 0).1 = some inst ∧
        exampleModel.getModelInstanceByVersion 7 = some inst :=
  ⟨by decide, by decide,
    (getDefaultModelInstance_highest_available exampleModel (by decide)).2.2
      exampleManager "resnet" (by decide) (by decide) (by
        intro w
        constructor
        · rintro ⟨i, hi, hs⟩
          simp only [exampleModel, List.mem_cons, Prod.mk.injEq, List.mem_singleton,
            List.mem_nil_iff, or_false] at hi
          rcases hi with ⟨h, hi⟩ | ⟨h, hi⟩ | ⟨h, hi⟩
          · exact Or.inl h
          · exact Or.inr h
          · rw [hi] at hs
            cases hs
        · rintro (h | h)
          · exact ⟨⟨ModelInstanceState.AVAILABLE, 30⟩, by rw [h]; decide, rfl⟩
          · exact ⟨⟨ModelInstanceState.AVAILABLE, 70⟩, by rw [h]; decide, rfl⟩)⟩

/-! ## Theorems on applying the transitions -/

theorem mem_mapKeys_mapInsert {V : Type} (k : model_version_t) (v : V)
    (m : List (model_version_t × V)) (x : model_version_t) :
    x ∈ mapKeys (mapInsert k v m) ↔ x = k ∨ x ∈ mapKeys m := by
  induction m with
  | nil => simp [mapInsert, mapKeys]
  | cons e rest ih =>
    obtain ⟨k', v'⟩ := e
    simp only [mapKeys] at ih
    by_cases h1 : k < k'
    · simp [mapInsert, mapKeys, h1]
    · by_cases h2 : k = k'
      · subst h2
        simp [mapInsert, mapKeys]
      · simp only [mapInsert, h1, h2, if_false, mapKeys, List.map_cons, List.mem_cons, ih]
        tauto

theorem mem_mapKeys_mapErase {V : Type} (k : model_version_t)
    (m : List (model_version_t × V)) (x : model_version_t) :
    x ∈ mapKeys (mapErase k m) ↔ x ∈ mapKeys m ∧ x ≠ k := by
  simp only [mapKeys, mapErase, List.mem_map, List.mem_filter, decide_eq_true_eq]
  constructor
  · rintro ⟨e, ⟨he, hne⟩, rfl⟩
    exact ⟨⟨e, he, rfl⟩, hne⟩
  · rintro ⟨⟨e, he, rfl⟩, hne⟩
    exact ⟨e, ⟨he, hne⟩, rfl⟩

theorem mem_mapKeys_foldl_startVersion (load : EngineLoad) (vs : List model_version_t)
    (mv : List (model_version_t × ModelInstance)) (x : model_version_t) :
    x ∈ mapKeys (vs.foldl (startVersion load) mv) ↔
      x ∈ mapKeys mv ∨ (x ∈ vs ∧ (load x).isSome) := by
  induction vs generalizing mv with
  | nil => simp
  | cons v rest ih =>
    rw [List.foldl_cons, ih]
    cases hl : load v with
    | none =>
      simp only [startVersion, hl, List.mem_cons]
      constructor
      · rintro (h | ⟨h1, h2⟩)
        · exact Or.inl h
        · exact Or.inr ⟨Or.inr h1, h2⟩
      · rintro (h | ⟨h1 | h1, h2⟩)
        · exact Or.inl h
        · rw [h1, hl] at h2
          cases h2
        · exact Or.inr ⟨h1, h2⟩
    | some hd =>
      simp only [startVersion, hl, List.mem_cons, mem_mapKeys_mapInsert]
      constructor
      · rintro ((h | h) | ⟨h1, h2⟩)
        · exact Or.inr ⟨Or.inl h, by rw [h, hl]; rfl⟩
        · exact Or.inl h
        · exact Or.inr ⟨Or.inr h1, h2⟩
      · rintro (h | ⟨h1 | h1, h2⟩)
        · exact Or.inl (Or.inr h)
        · exact Or.inl (Or.inl h1)
        · exact Or.inr ⟨h1, h2⟩

theorem mem_mapKeys_foldl_reloadVersion (load : EngineLoad) (vs : List model_version_t)
    (mv : List (model_version_t × ModelInstance)) (x : model_version_t) :
    x ∈ mapKeys (vs.foldl (reloadVersion load) mv) ↔
      x ∈ mapKeys mv ∨ (x ∈ vs ∧ (load x).isSome) :=
  mem_mapKeys_foldl_startVersion load vs mv x

theorem mem_mapKeys_foldl_retireVersion (vs : List model_version_t)
    (mv : List (model_version_t × ModelInstance)) (x : model_version_t) :
    x ∈ mapKeys (vs.foldl retireVersion mv) ↔ x ∈ mapKeys mv ∧ x ∉ vs := by
  induction vs generalizing mv with
  | nil => simp
  | cons v rest ih =>
    rw [List.foldl_cons, ih]
    simp only [retireVersion, mem_mapKeys_mapErase, List.mem_cons, not_or]
    tauto

theorem mem_mapKeys_reconcile (load : EngineLoad) (m : Model)
    (requested : List model_version_t) (x : model_version_t) :
    x ∈ mapKeys (reconcile load m requested).modelVersions ↔
      (x ∈ mapKeys m.modelVersions ∨ (load x).isSome) ∧ x ∈ requested := by
  simp only [reconcile, Model.applyTransitions, mem_mapKeys_foldl_retireVersion,
    mem_mapKeys_foldl_reloadVersion, mem_mapKeys_foldl_startVersion, mem_versionsToRetire,
    mem_versionsToReload, mem_versionsToStart]
  tauto

/-- C6: for every served map, when no version is requested `getVersionsToChange` yields
retire = keys(served), reload = empty and start = empty; after the pass is applied the model
has zero instances, and `findModelInstance` on a manager that serves that model returns
not-found for every version, version 0 included. -/
theorem reconcile_empty_request (load : EngineLoad) (m : Model) (self : ModelManager Model)
    (name : String) (hkeys : (mapKeys self.models).Nodup)
    (hstored : (name, some (reconcile load m [])) ∈ self.models) :
    getVersionsToChange m.modelVersions [] = ⟨mapKeys m.modelVersions, [], []⟩ ∧
    (reconcile load m []).modelVersions = [] ∧
    ∀ v, (self.findModelInstance modelOps name v).1 = none := by
  have hempty : (reconcile load m []).modelVersions = [] := by
    have hk : mapKeys (reconcile load m []).modelVersions = [] := by
      rw [List.eq_nil_iff_forall_not_mem]
      intro x hx
      rw [mem_mapKeys_reconcile] at hx
      exact absurd hx.2 (List.not_mem_nil x)
    exact List.map_eq_nil_iff.mp hk
  refine ⟨?_, hempty, ?_⟩
  · simp [getVersionsToChange]
  · intro v
    have hfind := findModelByName_of_mem self name _ hkeys hstored
    rw [findModelInstance_of_model modelOps self name v _ hfind]
    by_cases hv : v = 0
    · simp [hv, modelOps, Model.getDefaultModelInstance, hempty, highestAvailable]
    · simp [hv, modelOps, Model.getModelInstanceByVersion, hempty, mapFind]

theorem reconcile_empty_request_witness :
    (mapKeys (exampleRetired (fun _ => some 1)).models).Nodup ∧
    getVersionsToChange servedFive.modelVersions [] = ⟨[5], [], []⟩ ∧
    (reconcile (fun _ => some 1) servedFive []).modelVersions = [] ∧
    ∀ v, ((exampleRetired (fun _ => some 1)).findModelInstance modelOps "resnet" v).1 = none :=
  ⟨List.nodup_singleton _,
    reconcile_empty_request (fun _ => some 1) servedFive (exampleRetired (fun _ => some 1))
      "resnet" (List.nodup_singleton _) (List.mem_singleton.mpr rfl)⟩

/-- C7: idempotence of reconciliation. For every model and requested list, after one
reconciliation pass for the requested versions in which every load succeeds, the served
versions are exactly the requested ones, so a second `getVersionsToChange` against the
resulting served map with the same requested list yields start = empty and
retire = empty. -/
theorem reconcile_idempotent (load : EngineLoad) (m : Model)
    (requested : List model_version_t) (hload : ∀ v ∈ requested, (load v).isSome) :
    (∀ v, v ∈ mapKeys (reconcile load m requested).modelVersions ↔ v ∈ requested) ∧
    (getVersionsToChange (reconcile load m requested).modelVersions
      requested).versionsToStart = [] ∧
    (getVersionsToChange (reconcile load m requested).modelVersions
      requested).versionsToRetire = [] := by
  have hk : ∀ v, v ∈ mapKeys (reconcile load m requested).modelVersions ↔ v ∈ requested := by
    intro v
    rw [mem_mapKeys_reconcile]
    constructor
    · exact fun h => h.2
    · exact fun h => ⟨Or.inr (hload v h), h⟩
  refine ⟨hk, ?_, ?_⟩
  · rw [List.eq_nil_iff_forall_not_mem]
    intro x hx
    rw [mem_versionsToStart] at hx
    exact hx.2 ((hk x).mpr hx.1)
  · rw [List.eq_nil_iff_forall_not_mem]
    intro x hx
    rw [mem_versionsToRetire] at hx
    exact hx.2 ((hk x).mp hx.1)

theorem reconcile_idempotent_witness :
    (∀ v ∈ ([7, 4] : List model_version_t), ((fun _ => some 1 : EngineLoad) v).isSome) ∧
    (getVersionsToChange (reconcile (fun _ => some 1) exampleModel [7, 4]).modelVersions
      [7, 4]).versionsToStart = [] ∧
    (getVersionsToChange (reconcile (fun _ => some 1) exampleModel [7, 4]).modelVersions
      [7, 4]).versionsToRetire = [] :=
  ⟨fun _ _ => rfl,
    (reconcile_idempotent (fun _ => some 1) exampleModel [7, 4] (fun _ _ => rfl)).2⟩

end ovms

/-! ## Theorems on the prediction front end -/

namespace server

/-- C8: for every request on which inference completes (the request is deserialized, which
needs at least one input, and the engine returns an output buffer), `Predict` returns
`Status::OK` and the response message is exactly the one passed in, whatever output buffer
the engine produced. -/
theorem Predict_leaves_response {F : Type} (floatOfBytes : List Nat → F)
    (infer : List F → Option (List F)) (request : PredictRequest)
    (response : PredictResponse) (tensor buffer : List F)
    (hinput : deserializePredict floatOfBytes request = some tensor)
    (hinfer : infer tensor = some buffer) :
    request.inputs ≠ [] ∧
    Predict floatOfBytes infer request response = some (Status.OK, response) ∧
    (∀ (other : List F → Option (List F)) (buffer2 : List F),
      other tensor = some buffer2 →
      Predict floatOfBytes other request response =
        Predict floatOfBytes infer request response) := by
  refine ⟨?_, ?_, ?_⟩
  · intro hnil
    simp [deserializePredict, hnil] at hinput
  · simp [Predict, hinput, hinfer]
  · intro other buffer2 hother
    simp [Predict, hinput, hinfer, hother]

theorem Predict_leaves_response_witness :
    deserializePredict List.sum exampleRequest = some [191, 64, 128, 192, 224, 256] ∧
    Predict List.sum (fun t => some t.reverse) exampleRequest exampleResponse =
      some (Status.OK, exampleResponse) :=
  ⟨by decide,
    (Predict_leaves_response List.sum (fun t => some t.reverse) exampleRequest
      exampleResponse [191, 64, 128, 192, 224, 256] [256, 224, 192, 128, 64, 191]
      (by decide) (by decide)).2.1⟩

theorem toInt_of_range (k : Int) (h0 : 0 ≤ k) (h1 : k < 2 ^ 31) : toInt k = k := by
  unfold toInt INT_BITS
  norm_num at h1 ⊢
  omega

theorem tensorShapeNumElements_eq (dims : List Int) (ndims : Nat) (num k : Int)
    (hnum : 0 ≤ num) (h : tensorShapeNumElements dims ndims num = some k) :
    k = num * dims.prod ∧ 0 ≤ k := by
  induction dims generalizing ndims num with
  | nil =>
    simp only [tensorShapeNumElements, Option.some.injEq] at h
    subst h
    simp [hnum]
  | cons size rest ih =>
    by_cases hc : size < 0 ∨ 254 ≤ ndims ∨ 2 ^ 63 ≤ num * size
    · rw [tensorShapeNumElements, if_pos hc] at h
      cases h
    · rw [tensorShapeNumElements, if_neg hc] at h
      have hsize : 0 ≤ size := not_lt.mp (fun hlt => hc (Or.inl hlt))
      obtain ⟨hk, hk0⟩ := ih (ndims + 1) (num * size) (mul_nonneg hnum hsize) h
      refine ⟨?_, hk0⟩
      rw [hk, List.prod_cons, mul_assoc]

/-- C9, as amended: for every request with at least one input whose first input declares a
shape that `TensorShape` accepts, with an element count `k` below `2 ^ 31`, and whose
`tensor_content` holds at least `4 * k` bytes, `deserializePredict` returns a vector of
length `k`, the product of the declared dimensions; the vector is built from the first
input only (the other inputs are ignored), and its length is the same for every content of
at least `4 * k` bytes. -/
theorem deserializePredict_length {F : Type} (floatOfBytes : List Nat → F)
    (name : String) (tensor : TensorProto) (others : List (String × TensorProto)) (k : Int)
    (hshape : tensorShapeNumElements tensor.tensor_shape 0 1 = some k)
    (hint : k < 2 ^ 31)
    (hbytes : 4 * k ≤ (tensor.tensor_content.length : Int)) :
    k = tensor.tensor_shape.prod ∧
    (∃ t, deserializePredict floatOfBytes { inputs := (name, tensor) :: others } = some t ∧
      (t.length : Int) = k ∧
      t = (List.range k.toNat).map (floatAt floatOfBytes tensor.tensor_content)) ∧
    (∀ others2 : List (String × TensorProto),
      deserializePredict floatOfBytes { inputs := (name, tensor) :: others2 } =
        deserializePredict floatOfBytes { inputs := (name, tensor) :: others }) ∧
    (∀ content : List Nat, 4 * k ≤ (content.length : Int) →
      ∃ t, deserializePredict floatOfBytes
          { inputs := (name, { tensor with tensor_content := content }) :: others } = some t ∧
        (t.length : Int) = k) := by
  obtain ⟨hk, hk0⟩ := tensorShapeNumElements_eq tensor.tensor_shape 0 1 k (by decide) hshape
  have hto : toInt k = k := toInt_of_range k hk0 hint
  have hnot : ¬ k < 0 := not_lt.mpr hk0
  have hfit : ∀ content : List Nat, 4 * k ≤ (content.length : Int) →
      ¬ content.length < FLOAT_BYTES * k.toNat := by
    intro content hc
    unfold FLOAT_BYTES
    omega
  refine ⟨by rw [hk, one_mul], ?_, ?_, ?_⟩
  · refine ⟨(List.range k.toNat).map (floatAt floatOfBytes tensor.tensor_content), ?_, ?_,
      rfl⟩
    · simp only [deserializePredict, getNumOfElements, hshape, Option.map_some', hto,
        if_neg hnot, if_neg (hfit tensor.tensor_content hbytes)]
    · simp [Int.toNat_of_nonneg hk0]
  · intro others2
    simp [deserializePredict]
  · intro content hcontent
    refine ⟨(List.range k.toNat).map (floatAt floatOfBytes content), ?_, ?_⟩
    · simp only [deserializePredict, getNumOfElements, hshape, Option.map_some', hto,
        if_neg hnot, if_neg (hfit content hcontent)]
    · simp [Int.toNat_of_nonneg hk0]

theorem deserializePredict_length_witness :
    tensorShapeNumElements exampleTensor.tensor_shape 0 1 = some 6 ∧
    (6 : Int) < 2 ^ 31 ∧
    4 * (6 : Int) ≤ (exampleTensor.tensor_content.length : Int) ∧
    ∃ t, deserializePredict List.sum
        { inputs := ("data", exampleTensor) :: [("other", ⟨[4], []⟩)] } = some t ∧
      (t.length : Int) = 6 ∧
      t = (List.range (6 : Int).toNat).map (floatAt List.sum exampleTensor.tensor_content) :=
  ⟨by decide, by decide, by decide,
    (deserializePredict_length List.sum "data" exampleTensor [("other", ⟨[4], []⟩)] 6
      (by decide) (by decide) (by decide)).2.1⟩

/-- C9, the statement as written fails: a first input that declares the shape
65536 x 65536 has 4294967296 elements, yet the vector returned is empty because the count
is narrowed to `int`; for a first input that declares the size -1 no vector is returned;
and for a first input that declares 1000000 elements with an empty `tensor_content` the
read runs past the end of the buffer and no vector is returned. -/
theorem deserializePredict_length_counterexample :
    ([65536, 65536] : List Int).prod = 4294967296 ∧
    deserializePredict List.sum { inputs := [("data", ⟨[65536, 65536], []⟩)] } = some [] ∧
    ¬ (∃ t, deserializePredict List.sum
          { inputs := [("data", ⟨[65536, 65536], []⟩)] } = some t ∧
        (t.length : Int) = ([65536, 65536] : List Int).prod) ∧
    deserializePredict List.sum { inputs := [("data", ⟨[-1], []⟩)] } = none ∧
    deserializePredict List.sum { inputs := [("data", ⟨[1000000], []⟩)] } = none := by
  have h : deserializePredict List.sum { inputs := [("data", ⟨[65536, 65536], []⟩)] } =
      some [] := by decide
  refine ⟨by decide, h, ?_, by decide, by decide⟩
  rintro ⟨t, ht, hlen⟩
  rw [h] at ht
  cases ht
  revert hlen
  decide

theorem uintSucc_mod (s : Nat) : uintSucc (s % 2 ^ 32) = (s + 1) % 2 ^ 32 := by
  unfold uintSucc INT_BITS
  omega

theorem printTensorLoop_eq_filter {α : Type} (size : Nat) (l : List α) (s : Nat) :
    printTensorLoop size l (s % 2 ^ 32) =
      ((l.enumFrom s).filter
        (fun p => decide (¬ (p.1 % 2 ^ 32 > 6 ∧ p.1 % 2 ^ 32 < sizeSub size 10)))).map
        Prod.snd := by
  induction l generalizing s with
  | nil => rfl
  | cons x rest ih =>
    rw [printTensorLoop, uintSucc_mod, ih (s + 1), List.enumFrom_cons, List.filter_cons]
    by_cases hc : s % 2 ^ 32 > 6 ∧ s % 2 ^ 32 < sizeSub size 10
    · rw [if_pos hc, if_neg (by rw [decide_eq_true_eq]; exact not_not.mpr hc)]
    · rw [if_neg hc, if_pos (decide_eq_true hc), List.map_cons]

theorem printTensor_eq_filter {α : Type} (t : List α) :
    printTensor t =
      (t.enum.filter
        (fun p => decide (¬ (p.1 % 2 ^ 32 > 6 ∧ p.1 % 2 ^ 32 < sizeSub t.length 10)))).map
        Prod.snd :=
  printTensorLoop_eq_filter t.length t 0

theorem sizeSub_ten_cast (n : Nat) :
    ((sizeSub n 10 : Nat) : Int) = ((n : Int) - 10) % 2 ^ 64 := by
  unfold sizeSub SIZE_BITS
  norm_num
  omega

theorem printTensor_eq_printedByIndex {α : Type} (t : List α) (hn : t.length ≤ 2 ^ 32) :
    printTensor t = printedByIndex t := by
  rw [printTensor_eq_filter, printedByIndex]
  congr 1
  apply List.filter_congr
  intro p hp
  have hlt : p.1 < t.length := List.fst_lt_of_mem_enum hp
  have hmod : p.1 % 2 ^ 32 = p.1 := Nat.mod_eq_of_lt (lt_of_lt_of_le hlt hn)
  have hcast := sizeSub_ten_cast t.length
  rw [hmod, ← hcast]
  apply decide_eq_decide.mpr
  constructor
  · intro h
    by_cases h6 : p.1 ≤ 6
    · exact Or.inl h6
    · right
      have : ¬ p.1 < sizeSub t.length 10 := fun hh => h ⟨by omega, hh⟩
      exact_mod_cast not_lt.mp this
  · rintro (h | h) ⟨h1, h2⟩
    · omega
    · have : sizeSub t.length 10 ≤ p.1 := by exact_mod_cast h
      omega

theorem filter_enumFrom_head_tail {α : Type} (a b : Nat) (hab : a < b) (l : List α) (s : Nat) :
    ((l.enumFrom s).filter (fun p => decide (p.1 ≤ a ∨ b ≤ p.1))).map Prod.snd =
      l.take (a + 1 - s) ++ l.drop (b - s) := by
  induction l generalizing s with
  | nil => simp
  | cons x rest ih =>
    rw [List.enumFrom_cons, List.filter_cons]
    by_cases h1 : s ≤ a
    · have e1 : a + 1 - s = (a + 1 - (s + 1)) + 1 := by omega
      have e2 : b - s = (b - (s + 1)) + 1 := by omega
      rw [if_pos (by simp [h1]), List.map_cons, ih (s + 1), e1, e2, List.take_succ_cons,
        List.drop_succ_cons, List.cons_append]
    · by_cases h2 : b ≤ s
      · have e1 : a + 1 - s = 0 := by omega
        have e2 : b - s = 0 := by omega
        have e3 : a + 1 - (s + 1) = 0 := by omega
        have e4 : b - (s + 1) = 0 := by omega
        rw [if_pos (by simp [h2]), List.map_cons, ih (s + 1), e1, e2, e3, e4]
        simp
      · have e1 : a + 1 - s = 0 := by omega
        have e2 : b - s = (b - (s + 1)) + 1 := by omega
        have e3 : a + 1 - (s + 1) = 0 := by omega
        have hf : ¬ (s ≤ a ∨ b ≤ s) := by omega
        rw [if_neg (by simpa using hf), ih (s + 1), e1, e2, e3, List.drop_succ_cons]
        simp


theorem printTensor_eq_filter_small {α : Type} (t : List α) (hn : t.length ≤ 2 ^ 32) :
    printTensor t =
      (t.enum.filter (fun p => decide (p.1 ≤ 6 ∨ sizeSub t.length 10 ≤ p.1))).map Prod.snd := by
  rw [printTensor_eq_filter]
  congr 1
  apply List.filter_congr
  intro p hp
  have hlt : p.1 < t.length := List.fst_lt_of_mem_enum hp
  have hmod : p.1 % 2 ^ 32 = p.1 := Nat.mod_eq_of_lt (lt_of_lt_of_le hlt hn)
  rw [hmod]
  apply decide_eq_decide.mpr
  omega

/-- C10, as amended: for every vector `t` of length `n ≤ 2 ^ 32` (the range of the
`unsigned int` counter), `printTensor` prints, in index order, exactly the elements at the
indices `i` with `i ≤ 6` or `i ≥ (n - 10) mod 2 ^ 64`: all elements when `10 ≤ n ≤ 17`, the
first 7 and the last 10 when `n ≥ 17`, and only the elements at indices 0..6 when `n < 10`,
where the subtraction wraps around. -/
theorem printTensor_selection {α : Type} (t : List α) (hn : t.length ≤ 2 ^ 32) :
    printTensor t = printedByIndex t ∧
    (10 ≤ t.length → t.length ≤ 17 → printTensor t = t) ∧
    (17 ≤ t.length → printTensor t = t.take 7 ++ t.drop (t.length - 10)) ∧
    (t.length < 10 → printTensor t = t.take 7) := by
  have hsmall := printTensor_eq_filter_small t hn
  refine ⟨printTensor_eq_printedByIndex t hn, ?_, ?_, ?_⟩
  · intro h10 h17
    have hsub : sizeSub t.length 10 = t.length - 10 := by
      unfold sizeSub SIZE_BITS
      norm_num at hn ⊢
      omega
    rw [hsmall, hsub]
    have hall : t.enum.filter (fun p => decide (p.1 ≤ 6 ∨ t.length - 10 ≤ p.1)) = t.enum := by
      rw [List.filter_eq_self]
      intro p _
      apply decide_eq_true
      omega
    rw [hall, List.enum_map_snd]
  · intro h17
    have hsub : sizeSub t.length 10 = t.length - 10 := by
      unfold sizeSub SIZE_BITS
      norm_num at hn ⊢
      omega
    rw [hsmall, hsub, List.enum, filter_enumFrom_head_tail 6 (t.length - 10) (by omega) t 0]
    rfl
  · intro h10
    have hsub : t.length ≤ sizeSub t.length 10 ∧ 6 < sizeSub t.length 10 := by
      unfold sizeSub SIZE_BITS
      norm_num
      omega
    rw [hsmall, List.enum,
      filter_enumFrom_head_tail 6 (sizeSub t.length 10) hsub.2 t 0,
      List.drop_eq_nil_of_le (by omega)]
    simp

theorem printTensor_selection_witness :
    ([10, 11, 12, 13, 14, 15, 16, 17, 18] : List Nat).length ≤ 2 ^ 32 ∧
    ([10, 11, 12, 13, 14, 15, 16, 17, 18] : List Nat).length < 10 ∧
    printTensor ([10, 11, 12, 13, 14, 15, 16, 17, 18] : List Nat) =
      [10, 11, 12, 13, 14, 15, 16] :=
  ⟨by norm_num, by norm_num,
    (printTensor_selection ([10, 11, 12, 13, 14, 15, 16, 17, 18] : List Nat)
      (by norm_num)).2.2.2 (by norm_num)⟩

/-- C10, the statement as written fails: in a vector of 4294967314 elements, each labelled
by its index, the element at index 4294967296 is printed, because the counter has wrapped
to 0 there, although that index is neither at most 6 nor at least `n - 10`. -/
theorem printTensor_counterexample :
    (4294967296 : Nat) ∈ printTensor (List.range 4294967314) ∧
    (4294967296 : Nat) ∉ printedByIndex (List.range 4294967314) ∧
    printTensor (List.range 4294967314) ≠ printedByIndex (List.range 4294967314) := by
  have hin : (4294967296 : Nat) ∈ printTensor (List.range 4294967314) := by
    rw [printTensor_eq_filter]
    refine List.mem_map.mpr ⟨(4294967296, 4294967296), ?_, rfl⟩
    refine List.mem_filter.mpr ⟨?_, ?_⟩
    · exact List.mk_mem_enum_iff_getElem?.mpr (List.getElem?_range (by norm_num))
    · exact decide_eq_true (fun h => absurd h.1 (by norm_num))
  have hout : (4294967296 : Nat) ∉ printedByIndex (List.range 4294967314) := by
    intro h
    rw [printedByIndex] at h
    obtain ⟨p, hp, hsnd⟩ := List.mem_map.mp h
    obtain ⟨hmem, hpred⟩ := List.mem_filter.mp hp
    have hlt : p.1 < 4294967314 := by
      have := List.fst_lt_of_mem_enum hmem
      rwa [List.length_range] at this
    have hget := List.mem_enum_iff_getElem?.mp hmem
    rw [List.getElem?_range hlt, Option.some.injEq] at hget
    rw [List.length_range, decide_eq_true_eq] at hpred
    omega
  exact ⟨hin, hout, fun heq => hout (heq ▸ hin)⟩

end server
